import Mathlib

/-!
Verification of the HTTP header parsing core of via-httplib
(src/include/via/http/headers.hpp): the field_line parser, the
message_headers collection and the are_headers_split defence.

Bytes are modelled as natural numbers (the value of the received octet),
byte strings as lists of naturals.  The classes field_line and
message_headers are modelled as structures carrying exactly the member
variables of the source, and the member functions parse_char, parse, add,
find and content_length are translated statement by statement.
-/

/-- Convert a Lean string literal to the list of byte values it denotes
(used only to write concrete inputs readably). -/
def bytes (s : String) : List Nat := s.toList.map Char.toNat

/-- Modelled from the spec: is_space_or_tab of character.hpp is not under
src; the spec (section 4.1) defines it as classifying SP and HTAB. -/
def is_space_or_tab (c : Nat) : Bool := c = 32 || c = 9

/-- Modelled from the spec: is_end_of_line of character.hpp is not under
src; the spec (section 4.1) defines it as classifying CR or LF. -/
def is_end_of_line (c : Nat) : Bool := c = 13 || c = 10

/-- ASCII semantics of std::isalpha in the C locale, as used by
field_line::parse_char. -/
def isalpha (c : Nat) : Bool := (65 ≤ c && c ≤ 90) || (97 ≤ c && c ≤ 122)

/-- ASCII semantics of std::tolower in the C locale, as used by
field_line::parse_char. -/
def tolower (c : Nat) : Nat := if 65 ≤ c && c ≤ 90 then c + 32 else c

/-- The states of the field_line parser (enum Header in headers.hpp). -/
inductive Header where
  | HEADER_NAME
  | HEADER_VALUE_LS
  | HEADER_VALUE
  | HEADER_LF
  | HEADER_VALID
  | HEADER_ERROR_LENGTH
  | HEADER_ERROR_CRLF
  | HEADER_ERROR_WS
deriving DecidableEq, Repr

/-- The member variables of class field_line. -/
structure field_line where
  strict_crlf : Bool
  max_whitespace : Nat
  max_line_length : Nat
  name : List Nat
  value : List Nat
  length : Nat
  ws_count : Nat
  state : Header
deriving DecidableEq, Repr

/-- The field_line constructor: parser parameters set, all other members
in their initial state. -/
def field_line.mk0 (strict_crlf : Bool) (max_whitespace max_line_length : Nat) :
    field_line :=
  ⟨strict_crlf, max_whitespace, max_line_length, [], [], 0, 0, .HEADER_NAME⟩

/-- field_line::clear -/
def field_line.clear (fl : field_line) : field_line :=
  { fl with name := [], value := [], length := 0, ws_count := 0,
            state := .HEADER_NAME }

/-- The shared HEADER_VALUE case of field_line::parse_char (the
HEADER_VALUE_LS case falls through into it on a non-whitespace byte). -/
def value_step (fl : field_line) (c : Nat) : field_line × Bool :=
  if ¬ is_end_of_line c then ({ fl with value := fl.value ++ [c] }, true)
  else if c = 13 then ({ fl with state := .HEADER_LF }, true)
  else if fl.strict_crlf then ({ fl with state := .HEADER_ERROR_CRLF }, false)
  else ({ fl with state := .HEADER_VALID }, true)

/-- field_line::parse_char, translated branch by branch: the length counter
is incremented and checked first (overwriting the state on overflow), then
the switch on the state runs. -/
def parse_char (fl : field_line) (c : Nat) : field_line × Bool :=
  let fl := { fl with length := fl.length + 1 }
  let fl := if fl.max_line_length < fl.length
            then { fl with state := .HEADER_ERROR_LENGTH } else fl
  match fl.state with
  | .HEADER_NAME =>
    if isalpha c || c = 45 then
      ({ fl with name := fl.name ++ [tolower c] }, true)
    else if c = 58 then ({ fl with state := .HEADER_VALUE_LS }, true)
    else (fl, false)
  | .HEADER_VALUE_LS =>
    if is_space_or_tab c then
      if fl.max_whitespace < fl.ws_count + 1 then
        ({ fl with ws_count := fl.ws_count + 1, state := .HEADER_ERROR_WS },
         false)
      else ({ fl with ws_count := fl.ws_count + 1 }, true)
    else value_step { fl with state := .HEADER_VALUE } c
  | .HEADER_VALUE => value_step fl c
  | .HEADER_LF =>
    if c = 10 then ({ fl with state := .HEADER_VALID }, true) else (fl, false)
  | _ => (fl, false)

/-- field_line::parse: the while loop over the buffer.  Returns the updated
parser, the not yet consumed rest of the buffer (the final iterator
position) and the boolean result.  On reaching HEADER_VALID with a space or
tab as the next byte, a single space is appended to the value and parsing
re-enters HEADER_VALUE_LS (obs-fold continuation). -/
def field_line.parse : field_line → List Nat → field_line × List Nat × Bool
  | fl, [] => (fl, [], fl.state = .HEADER_VALID)
  | fl, c :: rest =>
    if fl.state = .HEADER_VALID then (fl, c :: rest, true)
    else
      match parse_char fl c with
      | (fl', false) => (fl', rest, false)
      | (fl', true) =>
        if fl'.state = .HEADER_VALID then
          match rest with
          | [] => (fl', [], true)
          | c2 :: _ =>
            if is_space_or_tab c2 then
              field_line.parse
                { fl' with value := fl'.value ++ [32],
                           state := .HEADER_VALUE_LS } rest
            else (fl', rest, true)
        else field_line.parse fl' rest

/-- Substring test: starts_with pat l is true when pat is a prefix of l
(used to model std::string::find returning a position). -/
def starts_with : List Nat → List Nat → Bool
  | [], _ => true
  | _ :: _, [] => false
  | p :: ps, x :: xs => p = x && starts_with ps xs

/-- Substring test: contains_seq pat l is true when pat occurs contiguously
inside l; models name.find(pat) != std::string::npos. -/
def contains_seq (pat : List Nat) : List Nat → Bool
  | [] => starts_with pat []
  | x :: xs => starts_with pat (x :: xs) || contains_seq pat xs

/-- The separator chosen by message_headers::add for a repeated name:
a semicolon when the name contains "cookie", a comma otherwise. -/
def separator (name : List Nat) : Nat :=
  if contains_seq (bytes "cookie") name then 59 else 44

/-- message_headers::add on the stored map, modelled as an association
list with one entry per key: if the name is present its value is extended
with the separator and the new value, otherwise the pair is inserted. -/
def add_field : List (List Nat × List Nat) → List Nat → List Nat →
    List (List Nat × List Nat)
  | [], name, value => [(name, value)]
  | (k, w) :: restF, name, value =>
    if k = name then (k, w ++ separator name :: value) :: restF
    else (k, w) :: add_field restF name value

/-- message_headers::find: the stored value for a name, or the empty
string when the name is absent (an empty string_view in the source). -/
def find_field : List (List Nat × List Nat) → List Nat → List Nat
  | [], _ => []
  | (k, w) :: restF, name => if k = name then w else find_field restF name

/-- The member variables of class message_headers. -/
structure message_headers where
  max_header_number : Nat
  max_header_length : Nat
  fields : List (List Nat × List Nat)
  field : field_line
  valid : Bool
  length : Nat
deriving DecidableEq, Repr

/-- The message_headers constructor. -/
def message_headers.mk0 (strict_crlf : Bool)
    (max_whitespace max_line_length max_header_number max_header_length : Nat) :
    message_headers :=
  ⟨max_header_number, max_header_length, [],
   field_line.mk0 strict_crlf max_whitespace max_line_length, false, 0⟩

/-- The code after the field loop of message_headers::parse: parse the
blank line terminating the headers, allowing CRLF or a bare LF. -/
def blank_line (mh : message_headers) (l : List Nat) :
    message_headers × List Nat × Bool :=
  match l with
  | [] => (mh, [], false)
  | c :: rest =>
    if ¬ is_end_of_line c then (mh, c :: rest, false)
    else
      match (if c = 13 then rest else c :: rest) with
      | [] => (mh, [], false)
      | d :: rest2 =>
        if d = 10 then ({ mh with valid := true }, rest2, true)
        else (mh, d :: rest2, false)

/-- message_headers::parse with explicit fuel for the while loop; the fuel
bound used by mh_parse is proven sufficient (mh_parse_fuel_irrel), so the
fuelled function computes exactly the loop of the source.  Each iteration
parses one field line, accumulates its length, adds it to the map, clears
the field parser and checks the header limits. -/
def mh_parse_fuel : Nat → message_headers → List Nat →
    message_headers × List Nat × Bool
  | 0, mh, l => (mh, l, false)
  | _ + 1, mh, [] => blank_line mh []
  | fuel + 1, mh, c :: rest =>
    if ¬ is_end_of_line c then
      match field_line.parse mh.field (c :: rest) with
      | (fl, rem, false) => ({ mh with field := fl }, rem, false)
      | (fl, rem, true) =>
        let mh' : message_headers :=
          { mh with length := mh.length + (fl.name.length + fl.value.length),
                    fields := add_field mh.fields fl.name fl.value,
                    field := fl.clear }
        if mh'.max_header_length < mh'.length
            || mh'.max_header_number < mh'.fields.length then
          (mh', rem, false)
        else mh_parse_fuel fuel mh' rem
    else blank_line mh (c :: rest)

/-- message_headers::parse: the fuel l.length + 2 dominates the number of
loop iterations (each iteration past the first consumes at least one
byte). -/
def mh_parse (mh : message_headers) (l : List Nat) :
    message_headers × List Nat × Bool :=
  mh_parse_fuel (l.length + 2) mh l

/-- Modelled from the spec: header_field.hpp is not under src; the
lowercase name of the Content-Length field used by
message_headers::content_length. -/
def LC_CONTENT_LENGTH : List Nat := bytes "content-length"

/-- Modelled from the spec: from_dec_string of character.hpp is not under
src; the spec (section 4.1) says it returns the decimal value of the
string, or minus one on any non-digit or overflow (values beyond the
largest ptrdiff_t). -/
def from_dec_string (s : List Nat) : Int :=
  if s = [] || s.any (fun c => ¬ (48 ≤ c && c ≤ 57)) then -1
  else
    let v := s.foldl (fun a c => a * 10 + (c - 48)) 0
    if (2 ^ 63 - 1 : Nat) < v then -1 else (v : Int)

/-- message_headers::content_length: zero when the Content-Length field is
absent (find returned an empty string), otherwise from_dec_string of the
stored value. -/
def message_headers.content_length (mh : message_headers) : Int :=
  let cl := find_field mh.fields LC_CONTENT_LENGTH
  if cl = [] then 0 else from_dec_string cl

/-- are_headers_split of headers.hpp: the scanning loop carrying the two
previously seen bytes (both initialised to the character zero, byte 48). -/
def ahs_loop : Nat → Nat → List Nat → Bool
  | _, _, [] => false
  | prev, pprev, c :: rest =>
    if c = 10 && (prev = 10 || (prev = 13 && pprev = 10)) then true
    else ahs_loop c prev rest

/-- are_headers_split: detects a newline preceded by a newline, or by a
carriage return itself preceded by a newline. -/
def are_headers_split (headers : List Nat) : Bool :=
  ahs_loop 48 48 headers

/-! Equation lemmas for field_line.parse, one per loop situation. -/

theorem fl_parse_nil (fl : field_line) :
    field_line.parse fl [] = (fl, [], decide (fl.state = .HEADER_VALID)) := rfl

theorem fl_parse_valid (fl : field_line) (c : Nat) (rest : List Nat)
    (h : fl.state = .HEADER_VALID) :
    field_line.parse fl (c :: rest) = (fl, c :: rest, true) := by
  simp [field_line.parse, h]

theorem fl_parse_false (fl : field_line) (c : Nat) (rest : List Nat)
    (fl' : field_line) (h : fl.state ≠ .HEADER_VALID)
    (hpc : parse_char fl c = (fl', false)) :
    field_line.parse fl (c :: rest) = (fl', rest, false) := by
  simp [field_line.parse, h, hpc]

theorem fl_parse_true_nonvalid (fl : field_line) (c : Nat) (rest : List Nat)
    (fl' : field_line) (h : fl.state ≠ .HEADER_VALID)
    (hpc : parse_char fl c = (fl', true)) (h2 : fl'.state ≠ .HEADER_VALID) :
    field_line.parse fl (c :: rest) = field_line.parse fl' rest := by
  simp [field_line.parse, h, hpc, h2]

theorem fl_parse_true_valid_nil (fl : field_line) (c : Nat)
    (fl' : field_line) (h : fl.state ≠ .HEADER_VALID)
    (hpc : parse_char fl c = (fl', true)) (h2 : fl'.state = .HEADER_VALID) :
    field_line.parse fl [c] = (fl', [], true) := by
  simp [field_line.parse, h, hpc, h2]

theorem fl_parse_true_valid_fold (fl : field_line) (c c2 : Nat)
    (rest2 : List Nat) (fl' : field_line) (h : fl.state ≠ .HEADER_VALID)
    (hpc : parse_char fl c = (fl', true)) (h2 : fl'.state = .HEADER_VALID)
    (hsp : is_space_or_tab c2 = true) :
    field_line.parse fl (c :: c2 :: rest2) =
      field_line.parse
        { fl' with value := fl'.value ++ [32], state := .HEADER_VALUE_LS }
        (c2 :: rest2) := by
  simp [field_line.parse, h, hpc, h2, hsp]

theorem fl_parse_true_valid_nofold (fl : field_line) (c c2 : Nat)
    (rest2 : List Nat) (fl' : field_line) (h : fl.state ≠ .HEADER_VALID)
    (hpc : parse_char fl c = (fl', true)) (h2 : fl'.state = .HEADER_VALID)
    (hsp : is_space_or_tab c2 = false) :
    field_line.parse fl (c :: c2 :: rest2) = (fl', c2 :: rest2, true) := by
  simp [field_line.parse, h, hpc, h2, hsp]

/-- Every branch of parse_char increments the line length counter by
exactly one. -/
theorem parse_char_length (fl : field_line) (c : Nat) :
    (parse_char fl c).1.length = fl.length + 1 := by
  obtain ⟨s, mw, ml, nm, v, len, ws, st⟩ := fl
  simp only [parse_char, value_step]
  by_cases h1 : ml < len + 1
  · rw [if_pos h1]
  · rw [if_neg h1]
    cases st <;> dsimp only <;> split_ifs <;> rfl

/-- The iterator of field_line::parse only moves forward: the unconsumed
rest is a suffix of the input. -/
theorem fl_parse_suffix : ∀ (l : List Nat) (fl : field_line),
    (field_line.parse fl l).2.1 <:+ l
  | [], fl => by
    rw [fl_parse_nil]
  | c :: rest, fl => by
    by_cases hv : fl.state = .HEADER_VALID
    · rw [fl_parse_valid fl c rest hv]
    · rcases hpc : parse_char fl c with ⟨fl', b⟩
      cases b with
      | false =>
        rw [fl_parse_false fl c rest fl' hv hpc]
        exact List.suffix_cons c rest
      | true =>
        by_cases hv' : fl'.state = .HEADER_VALID
        · cases rest with
          | nil =>
            rw [fl_parse_true_valid_nil fl c fl' hv hpc hv']
            exact List.nil_suffix
          | cons c2 rest2 =>
            rcases hsp : is_space_or_tab c2 with _ | _
            · rw [fl_parse_true_valid_nofold fl c c2 rest2 fl' hv hpc hv' hsp]
              exact List.suffix_cons c _
            · rw [fl_parse_true_valid_fold fl c c2 rest2 fl' hv hpc hv' hsp]
              exact (fl_parse_suffix (c2 :: rest2) _).trans (List.suffix_cons c _)
        · rw [fl_parse_true_nonvalid fl c rest fl' hv hpc hv']
          exact (fl_parse_suffix rest fl').trans (List.suffix_cons c rest)

theorem fl_parse_rem_le (l : List Nat) (fl : field_line) :
    (field_line.parse fl l).2.1.length ≤ l.length :=
  (fl_parse_suffix l fl).length_le

/-- The length counter never decreases across a parse call. -/
theorem fl_parse_length_ge : ∀ (l : List Nat) (fl : field_line),
    fl.length ≤ (field_line.parse fl l).1.length
  | [], fl => by
    rw [fl_parse_nil]
  | c :: rest, fl => by
    by_cases hv : fl.state = .HEADER_VALID
    · rw [fl_parse_valid fl c rest hv]
    · rcases hpc : parse_char fl c with ⟨fl', b⟩
      have hlen : fl'.length = fl.length + 1 := by
        have h := parse_char_length fl c
        rw [hpc] at h; exact h
      cases b with
      | false =>
        rw [fl_parse_false fl c rest fl' hv hpc]
        dsimp only
        omega
      | true =>
        by_cases hv' : fl'.state = .HEADER_VALID
        · cases rest with
          | nil =>
            rw [fl_parse_true_valid_nil fl c fl' hv hpc hv']
            dsimp only
            omega
          | cons c2 rest2 =>
            rcases hsp : is_space_or_tab c2 with _ | _
            · rw [fl_parse_true_valid_nofold fl c c2 rest2 fl' hv hpc hv' hsp]
              dsimp only
              omega
            · rw [fl_parse_true_valid_fold fl c c2 rest2 fl' hv hpc hv' hsp]
              have h := fl_parse_length_ge (c2 :: rest2)
                { fl' with value := fl'.value ++ [32], state := .HEADER_VALUE_LS }
              dsimp only at h
              omega
        · rw [fl_parse_true_nonvalid fl c rest fl' hv hpc hv']
          have h := fl_parse_length_ge rest fl'
          omega

/-- A parse call on a nonempty buffer from a state other than HEADER_VALID
strictly increases the length counter. -/
theorem fl_parse_length_succ (c : Nat) (rest : List Nat) (fl : field_line)
    (hv : fl.state ≠ .HEADER_VALID) :
    fl.length + 1 ≤ (field_line.parse fl (c :: rest)).1.length := by
  rcases hpc : parse_char fl c with ⟨fl', b⟩
  have hlen : fl'.length = fl.length + 1 := by
    have := parse_char_length fl c
    rw [hpc] at this; exact this
  cases b with
  | false =>
    rw [fl_parse_false fl c rest fl' hv hpc]
    dsimp only
    omega
  | true =>
    by_cases hv' : fl'.state = .HEADER_VALID
    · cases rest with
      | nil =>
        rw [fl_parse_true_valid_nil fl c fl' hv hpc hv']
        dsimp only
        omega
      | cons c2 rest2 =>
        rcases hsp : is_space_or_tab c2 with _ | _
        · rw [fl_parse_true_valid_nofold fl c c2 rest2 fl' hv hpc hv' hsp]
          dsimp only
          omega
        · rw [fl_parse_true_valid_fold fl c c2 rest2 fl' hv hpc hv' hsp]
          have h := fl_parse_length_ge (c2 :: rest2)
            { fl' with value := fl'.value ++ [32], state := .HEADER_VALUE_LS }
          dsimp only at h
          omega
    · rw [fl_parse_true_nonvalid fl c rest fl' hv hpc hv']
      have h := fl_parse_length_ge rest fl'
      omega

/-- A parse call from a state other than HEADER_VALID consumes at least
the first byte. -/
theorem fl_parse_consumed (c : Nat) (rest : List Nat) (fl : field_line)
    (hv : fl.state ≠ .HEADER_VALID) :
    (field_line.parse fl (c :: rest)).2.1.length ≤ rest.length := by
  rcases hpc : parse_char fl c with ⟨fl', b⟩
  cases b with
  | false =>
    rw [fl_parse_false fl c rest fl' hv hpc]
  | true =>
    by_cases hv' : fl'.state = .HEADER_VALID
    · cases rest with
      | nil =>
        rw [fl_parse_true_valid_nil fl c fl' hv hpc hv']
      | cons c2 rest2 =>
        rcases hsp : is_space_or_tab c2 with _ | _
        · rw [fl_parse_true_valid_nofold fl c c2 rest2 fl' hv hpc hv' hsp]
        · rw [fl_parse_true_valid_fold fl c c2 rest2 fl' hv hpc hv' hsp]
          exact fl_parse_rem_le _ _
    · rw [fl_parse_true_nonvalid fl c rest fl' hv hpc hv']
      exact fl_parse_rem_le rest fl'

/-- Appending further input to a parse call that returned with unconsumed
bytes does not change its outcome: the call never looked past the bytes it
consumed plus the one byte of lookahead it had. -/
theorem fl_parse_append_more : ∀ (l : List Nat) (fl fl' : field_line) (d : Nat)
    (r s2 : List Nat),
    field_line.parse fl l = (fl', d :: r, true) →
    field_line.parse fl (l ++ s2) = (fl', d :: (r ++ s2), true)
  | [], fl, fl', d, r, s2 => by
    rw [fl_parse_nil]
    intro h
    simp only [Prod.mk.injEq] at h
    exact absurd h.2.1 (by simp)
  | c :: rest, fl, fl', d, r, s2 => by
    intro h
    by_cases hv : fl.state = .HEADER_VALID
    · rw [fl_parse_valid fl c rest hv] at h
      simp only [Prod.mk.injEq] at h
      obtain ⟨h1, h2, -⟩ := h
      subst h1
      injection h2 with e1 e2
      subst e1
      subst e2
      exact fl_parse_valid fl c (rest ++ s2) hv
    · rcases hpc : parse_char fl c with ⟨fl'', b⟩
      cases b with
      | false =>
        rw [fl_parse_false fl c rest fl'' hv hpc] at h
        simp only [Prod.mk.injEq] at h
        exact absurd h.2.2 (by simp)
      | true =>
        by_cases hv' : fl''.state = .HEADER_VALID
        · cases rest with
          | nil =>
            rw [fl_parse_true_valid_nil fl c fl'' hv hpc hv'] at h
            simp only [Prod.mk.injEq] at h
            exact absurd h.2.1 (by simp)
          | cons c2 rest2 =>
            rcases hsp : is_space_or_tab c2 with _ | _
            · rw [fl_parse_true_valid_nofold fl c c2 rest2 fl'' hv hpc hv' hsp]
                at h
              simp only [Prod.mk.injEq] at h
              obtain ⟨h1, h2, -⟩ := h
              subst h1
              injection h2 with e1 e2
              subst e1
              subst e2
              exact fl_parse_true_valid_nofold fl c c2 (rest2 ++ s2) fl''
                hv hpc hv' hsp
            · rw [fl_parse_true_valid_fold fl c c2 rest2 fl'' hv hpc hv' hsp]
                at h
              exact (fl_parse_true_valid_fold fl c c2 (rest2 ++ s2) fl''
                  hv hpc hv' hsp).trans
                (fl_parse_append_more (c2 :: rest2)
                  { fl'' with value := fl''.value ++ [32],
                              state := .HEADER_VALUE_LS } fl' d r s2 h)
        · rw [fl_parse_true_nonvalid fl c rest fl'' hv hpc hv'] at h
          exact (fl_parse_true_nonvalid fl c (rest ++ s2) fl'' hv hpc
              hv').trans
            (fl_parse_append_more rest fl'' fl' d r s2 h)

/-- Appending further input to a parse call that returned true having
consumed its whole buffer: the appended input is left unconsumed, provided
it does not begin with a space or tab (which would instead be taken as an
obs-fold continuation). -/
theorem fl_parse_append_end : ∀ (l : List Nat) (fl fl' : field_line)
    (s2 : List Nat),
    field_line.parse fl l = (fl', [], true) →
    (s2 = [] ∨ ∃ e r2, s2 = e :: r2 ∧ is_space_or_tab e = false) →
    field_line.parse fl (l ++ s2) = (fl', s2, true)
  | [], fl, fl', s2 => by
    rw [fl_parse_nil]
    intro h hs2
    simp only [Prod.mk.injEq] at h
    obtain ⟨h1, -, hval⟩ := h
    subst h1
    have hv : fl.state = .HEADER_VALID := by
      by_contra hc
      simp [hc] at hval
    rcases hs2 with rfl | ⟨e, r2, rfl, -⟩
    · rw [List.nil_append, fl_parse_nil]
      simp [hv]
    · rw [List.nil_append]
      exact fl_parse_valid fl e r2 hv
  | c :: rest, fl, fl', s2 => by
    intro h hs2
    by_cases hv : fl.state = .HEADER_VALID
    · rw [fl_parse_valid fl c rest hv] at h
      simp only [Prod.mk.injEq] at h
      exact absurd h.2.1 (by simp)
    · rcases hpc : parse_char fl c with ⟨fl'', b⟩
      cases b with
      | false =>
        rw [fl_parse_false fl c rest fl'' hv hpc] at h
        simp only [Prod.mk.injEq] at h
        exact absurd h.2.2 (by simp)
      | true =>
        by_cases hv' : fl''.state = .HEADER_VALID
        · cases rest with
          | nil =>
            rw [fl_parse_true_valid_nil fl c fl'' hv hpc hv'] at h
            simp only [Prod.mk.injEq] at h
            obtain ⟨h1, -, -⟩ := h
            subst h1
            rcases hs2 with rfl | ⟨e, r2, rfl, hsp⟩
            · rw [List.append_nil]
              exact fl_parse_true_valid_nil fl c fl'' hv hpc hv'
            · exact fl_parse_true_valid_nofold fl c e r2 fl'' hv hpc hv' hsp
          | cons c2 rest2 =>
            rcases hsp : is_space_or_tab c2 with _ | _
            · rw [fl_parse_true_valid_nofold fl c c2 rest2 fl'' hv hpc hv' hsp]
                at h
              simp only [Prod.mk.injEq] at h
              exact absurd h.2.1 (by simp)
            · rw [fl_parse_true_valid_fold fl c c2 rest2 fl'' hv hpc hv' hsp]
                at h
              exact (fl_parse_true_valid_fold fl c c2 (rest2 ++ s2) fl''
                  hv hpc hv' hsp).trans
                (fl_parse_append_end (c2 :: rest2)
                  { fl'' with value := fl''.value ++ [32],
                              state := .HEADER_VALUE_LS } fl' s2 h hs2)
        · rw [fl_parse_true_nonvalid fl c rest fl'' hv hpc hv'] at h
          exact (fl_parse_true_nonvalid fl c (rest ++ s2) fl'' hv hpc
              hv').trans
            (fl_parse_append_end rest fl'' fl' s2 h hs2)

/-! Equation lemmas for mh_parse_fuel at a positive fuel, one per loop
situation of message_headers::parse. -/

theorem mh_parse_fuel_nil (f : Nat) (mh : message_headers) :
    mh_parse_fuel (f + 1) mh [] = (mh, [], false) := rfl

theorem mh_parse_fuel_eol (f : Nat) (mh : message_headers) (c : Nat)
    (rest : List Nat) (h : is_end_of_line c = true) :
    mh_parse_fuel (f + 1) mh (c :: rest) = blank_line mh (c :: rest) := by
  simp [mh_parse_fuel, h]

theorem mh_parse_fuel_field_false (f : Nat) (mh : message_headers) (c : Nat)
    (rest : List Nat) (fl : field_line) (rem : List Nat)
    (h : is_end_of_line c = false)
    (hfp : field_line.parse mh.field (c :: rest) = (fl, rem, false)) :
    mh_parse_fuel (f + 1) mh (c :: rest) = ({ mh with field := fl }, rem, false)
    := by
  simp [mh_parse_fuel, h, hfp]

theorem mh_parse_fuel_field_true (f : Nat) (mh : message_headers) (c : Nat)
    (rest : List Nat) (fl : field_line) (rem : List Nat)
    (h : is_end_of_line c = false)
    (hfp : field_line.parse mh.field (c :: rest) = (fl, rem, true)) :
    mh_parse_fuel (f + 1) mh (c :: rest) =
      (if (add_field mh.fields fl.name fl.value).length ≤ mh.max_header_number
          ∧ mh.length + (fl.name.length + fl.value.length) ≤ mh.max_header_length
       then
         mh_parse_fuel f
           { mh with
             length := mh.length + (fl.name.length + fl.value.length),
             fields := add_field mh.fields fl.name fl.value,
             field := fl.clear } rem
       else
         ({ mh with
            length := mh.length + (fl.name.length + fl.value.length),
            fields := add_field mh.fields fl.name fl.value,
            field := fl.clear }, rem, false)) := by
  simp only [mh_parse_fuel, h, Bool.not_eq_true, Bool.false_eq_true,
    not_false_eq_true, if_true, hfp]
  by_cases hc : mh.max_header_length < mh.length + (fl.name.length + fl.value.length)
      ∨ mh.max_header_number < (add_field mh.fields fl.name fl.value).length
  · have hb : (decide (mh.max_header_length <
        mh.length + (fl.name.length + fl.value.length))
        || decide (mh.max_header_number <
        (add_field mh.fields fl.name fl.value).length)) = true := by
      rcases hc with hc | hc <;> simp [hc]
    rw [if_pos hb, if_neg (by omega)]
  · push_neg at hc
    have hb : (decide (mh.max_header_length <
        mh.length + (fl.name.length + fl.value.length))
        || decide (mh.max_header_number <
        (add_field mh.fields fl.name fl.value).length)) = false := by
      simp [Nat.not_lt.mpr hc.1, Nat.not_lt.mpr hc.2]
    rw [if_neg (by simp [hb]), if_pos (by omega)]

/-- The loop of message_headers::parse runs at most one iteration more
than the number of input bytes, so any two sufficient fuels compute the
same result. -/
theorem mh_parse_fuel_irrel : ∀ (f g : Nat) (mh : message_headers)
    (l : List Nat),
    l.length + (if mh.field.state = .HEADER_VALID then 1 else 0) < f →
    l.length + (if mh.field.state = .HEADER_VALID then 1 else 0) < g →
    mh_parse_fuel f mh l = mh_parse_fuel g mh l := by
  intro f
  induction f with
  | zero => intro g mh l hf hg; omega
  | succ f' ih =>
    intro g mh l hf hg
    obtain ⟨g', rfl⟩ : ∃ g', g = g' + 1 := ⟨g - 1, by omega⟩
    cases l with
    | nil => rfl
    | cons c rest =>
      rcases he : is_end_of_line c with _ | _
      · rcases hfp : field_line.parse mh.field (c :: rest) with ⟨fl, rem, b⟩
        cases b with
        | false =>
          rw [mh_parse_fuel_field_false f' mh c rest fl rem he hfp,
              mh_parse_fuel_field_false g' mh c rest fl rem he hfp]
        | true =>
          rw [mh_parse_fuel_field_true f' mh c rest fl rem he hfp,
              mh_parse_fuel_field_true g' mh c rest fl rem he hfp]
          have hrem : rem.length < rest.length + 1 + 1 := by
            have h1 := fl_parse_rem_le (c :: rest) mh.field
            rw [hfp] at h1
            simp at h1
            omega
          have hrem2 : rem.length < f' ∧ rem.length < g' := by
            by_cases hv : mh.field.state = .HEADER_VALID
            · rw [fl_parse_valid mh.field c rest hv] at hfp
              simp only [Prod.mk.injEq] at hfp
              obtain ⟨-, h2, -⟩ := hfp
              simp [hv] at hf hg
              subst h2
              constructor <;> simp <;> omega
            · have h1 := fl_parse_consumed c rest mh.field hv
              rw [hfp] at h1
              simp at h1
              simp [hv] at hf hg
              omega
          split_ifs with hcond
          · exact ih g'
              { mh with
                length := mh.length + (fl.name.length + fl.value.length),
                fields := add_field mh.fields fl.name fl.value,
                field := fl.clear } rem
              (by simp [field_line.clear]; omega)
              (by simp [field_line.clear]; omega)
          · rfl
      · rw [mh_parse_fuel_eol f' mh c rest he, mh_parse_fuel_eol g' mh c rest he]

/-! Equation lemmas for mh_parse itself. -/

theorem mh_parse_nil (mh : message_headers) :
    mh_parse mh [] = (mh, [], false) := rfl

theorem mh_parse_eol (mh : message_headers) (c : Nat) (rest : List Nat)
    (h : is_end_of_line c = true) :
    mh_parse mh (c :: rest) = blank_line mh (c :: rest) :=
  mh_parse_fuel_eol (rest.length + 2) mh c rest h

theorem mh_parse_field_false (mh : message_headers) (c : Nat)
    (rest : List Nat) (fl : field_line) (rem : List Nat)
    (h : is_end_of_line c = false)
    (hfp : field_line.parse mh.field (c :: rest) = (fl, rem, false)) :
    mh_parse mh (c :: rest) = ({ mh with field := fl }, rem, false) :=
  mh_parse_fuel_field_false (rest.length + 2) mh c rest fl rem h hfp

theorem mh_parse_field_true (mh : message_headers) (c : Nat)
    (rest : List Nat) (fl : field_line) (rem : List Nat)
    (h : is_end_of_line c = false)
    (hfp : field_line.parse mh.field (c :: rest) = (fl, rem, true)) :
    mh_parse mh (c :: rest) =
      (if (add_field mh.fields fl.name fl.value).length ≤ mh.max_header_number
          ∧ mh.length + (fl.name.length + fl.value.length) ≤ mh.max_header_length
       then
         mh_parse
           { mh with
             length := mh.length + (fl.name.length + fl.value.length),
             fields := add_field mh.fields fl.name fl.value,
             field := fl.clear } rem
       else
         ({ mh with
            length := mh.length + (fl.name.length + fl.value.length),
            fields := add_field mh.fields fl.name fl.value,
            field := fl.clear }, rem, false)) := by
  rw [show mh_parse mh (c :: rest)
        = mh_parse_fuel ((rest.length + 2) + 1) mh (c :: rest) from rfl,
      mh_parse_fuel_field_true (rest.length + 2) mh c rest fl rem h hfp]
  have hrem : rem.length ≤ rest.length + 1 := by
    have h1 := fl_parse_rem_le (c :: rest) mh.field
    rw [hfp] at h1
    simpa using h1
  split_ifs with hcond
  · exact mh_parse_fuel_irrel (rest.length + 2) (rem.length + 2)
      { mh with
        length := mh.length + (fl.name.length + fl.value.length),
        fields := add_field mh.fields fl.name fl.value,
        field := fl.clear } rem
      (by split
          · next hh => simp [field_line.clear] at hh
          · omega)
      (by split <;> omega)
  · rfl

/-- The three terminal error states of the field_line parser. -/
def is_error_state (s : Header) : Bool :=
  s = .HEADER_ERROR_LENGTH || s = .HEADER_ERROR_CRLF || s = .HEADER_ERROR_WS

theorem parse_char_error (fl : field_line) (c : Nat)
    (h : is_error_state fl.state = true) :
    (parse_char fl c).2 = false ∧
      is_error_state (parse_char fl c).1.state = true := by
  obtain ⟨s, mw, ml, nm, v, len, ws, st⟩ := fl
  simp only [is_error_state, Bool.or_eq_true, decide_eq_true_eq] at h
  simp only [parse_char, value_step]
  by_cases h1 : ml < len + 1
  · rw [if_pos h1]
    exact ⟨rfl, rfl⟩
  · rw [if_neg h1]
    rcases h with (h | h) | h <;> subst h <;> exact ⟨rfl, rfl⟩

theorem fl_parse_error (fl : field_line) (l : List Nat)
    (h : is_error_state fl.state = true) :
    (field_line.parse fl l).2.2 = false ∧
      is_error_state (field_line.parse fl l).1.state = true := by
  have hv : fl.state ≠ .HEADER_VALID := by
    intro hc
    rw [hc] at h
    simp [is_error_state] at h
  cases l with
  | nil =>
    rw [fl_parse_nil]
    simpa [hv] using h
  | cons c rest =>
    rcases hpc : parse_char fl c with ⟨fl', b⟩
    have herr := parse_char_error fl c h
    rw [hpc] at herr
    rcases herr with ⟨hb, herr'⟩
    cases b with
    | true => simp at hb
    | false =>
      rw [fl_parse_false fl c rest fl' hv hpc]
      exact ⟨rfl, herr'⟩

/-- C10: once the field_line parser is in one of the error states
HEADER_ERROR_LENGTH, HEADER_ERROR_CRLF or HEADER_ERROR_WS, every further
parse_char returns false with the state still an error state (so never
HEADER_VALID), and every further parse call returns false. -/
theorem C10_error_states_terminal (fl : field_line) (c : Nat) (l : List Nat)
    (h : is_error_state fl.state = true) :
    ((parse_char fl c).2 = false ∧
      is_error_state (parse_char fl c).1.state = true) ∧
    ((field_line.parse fl l).2.2 = false ∧
      is_error_state (field_line.parse fl l).1.state = true) :=
  ⟨parse_char_error fl c h, fl_parse_error fl l h⟩

/-- Witness for C10 at a concrete errored parser. -/
theorem C10_witness :
    ((parse_char ⟨false, 8, 1024, [97], [], 3, 9, .HEADER_ERROR_WS⟩ 97).2
        = false ∧
      is_error_state
        (parse_char ⟨false, 8, 1024, [97], [], 3, 9, .HEADER_ERROR_WS⟩ 97).1.state
        = true) ∧
    ((field_line.parse ⟨false, 8, 1024, [97], [], 3, 9, .HEADER_ERROR_WS⟩
        (bytes "x\r\n")).2.2 = false ∧
      is_error_state
        (field_line.parse ⟨false, 8, 1024, [97], [], 3, 9, .HEADER_ERROR_WS⟩
          (bytes "x\r\n")).1.state = true) :=
  C10_error_states_terminal ⟨false, 8, 1024, [97], [], 3, 9, .HEADER_ERROR_WS⟩
    97 (bytes "x\r\n") (by decide)

/-- C4: exceeding any configured limit by one byte fails with the
corresponding error, consuming no bytes beyond detection.  Part one: a
byte arriving when the line length counter has already reached
max_line_length drives parse_char to HEADER_ERROR_LENGTH and returns
false.  Part two: the enclosing parse call then stops right after that
byte.  Part three: a space or tab arriving in the leading-whitespace state
when ws_count has already reached max_whitespace drives parse_char to
HEADER_ERROR_WS and returns false.  Part four: when a parsed field line
pushes the cumulative header length over max_header_length or the field
count over max_header_number, message_headers::parse returns false with
the iterator right after that field line. -/
theorem C4_bounded_resources :
    (∀ (fl : field_line) (c : Nat), fl.max_line_length ≤ fl.length →
      parse_char fl c =
        ({ fl with length := fl.length + 1, state := .HEADER_ERROR_LENGTH },
         false)) ∧
    (∀ (fl : field_line) (c : Nat) (rest : List Nat),
      fl.max_line_length ≤ fl.length → fl.state ≠ .HEADER_VALID →
      field_line.parse fl (c :: rest) =
        ({ fl with length := fl.length + 1, state := .HEADER_ERROR_LENGTH },
         rest, false)) ∧
    (∀ (fl : field_line) (c : Nat), fl.state = .HEADER_VALUE_LS →
      is_space_or_tab c = true → fl.max_whitespace ≤ fl.ws_count →
      fl.length < fl.max_line_length →
      parse_char fl c =
        ({ fl with length := fl.length + 1, ws_count := fl.ws_count + 1,
                   state := .HEADER_ERROR_WS }, false)) ∧
    (∀ (mh : message_headers) (c : Nat) (rest : List Nat) (fl : field_line)
      (rem : List Nat),
      is_end_of_line c = false →
      field_line.parse mh.field (c :: rest) = (fl, rem, true) →
      mh.max_header_number < (add_field mh.fields fl.name fl.value).length ∨
        mh.max_header_length < mh.length + (fl.name.length + fl.value.length) →
      mh_parse mh (c :: rest) =
        ({ mh with
           length := mh.length + (fl.name.length + fl.value.length),
           fields := add_field mh.fields fl.name fl.value,
           field := fl.clear }, rem, false)) := by
  refine ⟨?_, ?_, ?_, ?_⟩
  · intro fl c hlen
    obtain ⟨s, mw, ml, nm, v, len, ws, st⟩ := fl
    simp only at hlen
    simp only [parse_char]
    rw [if_pos (by omega : ml < len + 1)]
  · intro fl c rest hlen hv
    have hpc : parse_char fl c =
        ({ fl with length := fl.length + 1, state := .HEADER_ERROR_LENGTH },
         false) := by
      obtain ⟨s, mw, ml, nm, v, len, ws, st⟩ := fl
      simp only at hlen
      simp only [parse_char]
      rw [if_pos (by omega : ml < len + 1)]
    exact fl_parse_false fl c rest _ hv hpc
  · intro fl c hst hsp hws hlen
    obtain ⟨s, mw, ml, nm, v, len, ws, st⟩ := fl
    simp only at hst hws hlen
    subst hst
    simp only [parse_char]
    rw [if_neg (by omega : ¬ ml < len + 1)]
    simp only [hsp, if_true]
    rw [if_pos (by omega : mw < ws + 1)]
  · intro mh c rest fl rem he hfp hlim
    rw [mh_parse_field_true mh c rest fl rem he hfp,
        if_neg (by omega : ¬ ((add_field mh.fields fl.name fl.value).length
          ≤ mh.max_header_number ∧
          mh.length + (fl.name.length + fl.value.length)
            ≤ mh.max_header_length))]

/-- Witness for C4 at concrete limit-straddling inputs. -/
theorem C4_witness :
    (parse_char ⟨false, 8, 4, [97], [], 4, 0, .HEADER_NAME⟩ 98 =
      (⟨false, 8, 4, [97], [], 5, 0, .HEADER_ERROR_LENGTH⟩, false)) ∧
    (field_line.parse ⟨false, 8, 4, [97], [], 4, 0, .HEADER_NAME⟩
        (bytes "bc") =
      (⟨false, 8, 4, [97], [], 5, 0, .HEADER_ERROR_LENGTH⟩, bytes "c",
       false)) ∧
    (parse_char ⟨false, 2, 1024, [97], [], 4, 2, .HEADER_VALUE_LS⟩ 32 =
      (⟨false, 2, 1024, [97], [], 5, 3, .HEADER_ERROR_WS⟩, false)) ∧
    (mh_parse ⟨1, 65534, [(bytes "a", bytes "b")],
        field_line.mk0 false 8 1024, false, 2⟩ (bytes "c: d\r\n\r\n") =
      (⟨1, 65534, [(bytes "a", bytes "b"), (bytes "c", bytes "d")],
        field_line.mk0 false 8 1024, false, 4⟩, bytes "\r\n", false)) := by
  have h := C4_bounded_resources
  refine ⟨?_, ?_, ?_, ?_⟩
  · exact h.1 ⟨false, 8, 4, [97], [], 4, 0, .HEADER_NAME⟩ 98 (by decide)
  · exact h.2.1 ⟨false, 8, 4, [97], [], 4, 0, .HEADER_NAME⟩ 98 [99]
      (by decide) (by decide)
  · exact h.2.2.1 ⟨false, 2, 1024, [97], [], 4, 2, .HEADER_VALUE_LS⟩ 32
      (by decide) (by decide) (by decide) (by decide)
  · have h4 := h.2.2.2 ⟨1, 65534, [(bytes "a", bytes "b")],
        field_line.mk0 false 8 1024, false, 2⟩ 99 (bytes ": d\r\n\r\n")
        ⟨false, 8, 1024, bytes "c", bytes "d", 6, 1, .HEADER_VALID⟩
        (bytes "\r\n") (by decide) (by decide) (by decide)
    exact h4

/-- C5 counterexample: with strict_crlf set, message_headers::parse still
accepts a bare LF as the terminating blank line (the blank-line code never
consults strict_crlf), contradicting the claim that it is rejected as
malformed. -/
theorem C5_counterexample :
    (message_headers.mk0 true 8 1024 100 65534).field.strict_crlf = true ∧
    (mh_parse (message_headers.mk0 true 8 1024 100 65534) (bytes "\n")).2.2
      = true ∧
    (mh_parse (message_headers.mk0 true 8 1024 100 65534) (bytes "\n")).1.valid
      = true := by decide

/-- C5 amended: message_headers::parse accepts the terminating blank line
written as CRLF, and also accepts a bare LF blank line regardless of the
strict_crlf setting; strict_crlf only affects line endings inside field
lines. -/
theorem C5_blank_line_accepts_lf (mh : message_headers) (rest : List Nat) :
    mh_parse mh (13 :: 10 :: rest) = ({ mh with valid := true }, rest, true) ∧
    mh_parse mh (10 :: rest) = ({ mh with valid := true }, rest, true) := by
  constructor
  · rw [mh_parse_eol mh 13 (10 :: rest) (by decide)]
    simp [blank_line, is_end_of_line]
  · rw [mh_parse_eol mh 10 rest (by decide)]
    simp [blank_line, is_end_of_line]

/-- C8 counterexample: two received Cookie fields a=1 and b=2 merge to the
stored value "a=1;b=2" with no space after the semicolon, not "a=1; b=2"
as claimed. -/
theorem C8_counterexample :
    (mh_parse (message_headers.mk0 false 8 1024 100 65534)
        (bytes "Cookie: a=1\r\nCookie: b=2\r\n\r\n")).2.2 = true ∧
    find_field (mh_parse (message_headers.mk0 false 8 1024 100 65534)
        (bytes "Cookie: a=1\r\nCookie: b=2\r\n\r\n")).1.fields (bytes "cookie")
      = bytes "a=1;b=2" ∧
    bytes "a=1;b=2" ≠ bytes "a=1; b=2" := by decide

/-- C8 amended: receiving Cookie fields a=1 then b=2 yields the single
stored entry cookie with value "a=1;b=2" (semicolon separator, no space
inserted). -/
theorem C8_cookie_merge :
    (mh_parse (message_headers.mk0 false 8 1024 100 65534)
        (bytes "Cookie: a=1\r\nCookie: b=2\r\n\r\n")).1.fields
      = [(bytes "cookie", bytes "a=1;b=2")] ∧
    (mh_parse (message_headers.mk0 false 8 1024 100 65534)
        (bytes "Cookie: a=1\r\nCookie: b=2\r\n\r\n")).2.2 = true := by decide

/-- C9 counterexample: when a content-length field is stored with the
empty string as its value (reachable by parsing "Content-Length:" with no
value), content_length returns 0, although the empty string is not a valid
decimal number (from_dec_string maps it to minus one), so the claim would
require minus one. -/
theorem C9_counterexample :
    message_headers.content_length
      ⟨100, 65534, [(bytes "content-length", [])],
       field_line.mk0 false 8 1024, true, 14⟩ = 0 ∧
    from_dec_string [] = -1 ∧
    (mh_parse (message_headers.mk0 false 8 1024 100 65534)
        (bytes "Content-Length:\r\n\r\n")).1.fields
      = [(bytes "content-length", [])] ∧
    (0 : Int) ≠ -1 := by decide

/-- C9 amended: content_length returns 0 when no content-length field is
stored or when the stored value is the empty string (the two cases are
indistinguishable through find); for a non-empty stored value it returns
from_dec_string of it, which is the decimal value, or minus one on any
non-digit or on overflow past the largest ptrdiff_t. -/
theorem C9_content_length (mh : message_headers) :
    (find_field mh.fields LC_CONTENT_LENGTH = [] →
      mh.content_length = 0) ∧
    (∀ v, find_field mh.fields LC_CONTENT_LENGTH = v → v ≠ [] →
      mh.content_length = from_dec_string v) ∧
    (∀ (s : List Nat) (c : Nat), c ∈ s → ¬ (48 ≤ c ∧ c ≤ 57) →
      from_dec_string s = -1) ∧
    (∀ s : List Nat, s ≠ [] → (∀ c ∈ s, 48 ≤ c ∧ c ≤ 57) →
      s.foldl (fun a c => a * 10 + (c - 48)) 0 ≤ 2 ^ 63 - 1 →
      from_dec_string s = (s.foldl (fun a c => a * 10 + (c - 48)) 0 : Nat)) ∧
    (∀ s : List Nat, s ≠ [] → (∀ c ∈ s, 48 ≤ c ∧ c ≤ 57) →
      2 ^ 63 - 1 < s.foldl (fun a c => a * 10 + (c - 48)) 0 →
      from_dec_string s = -1) := by
  refine ⟨?_, ?_, ?_, ?_, ?_⟩
  · intro h
    simp [message_headers.content_length, h]
  · intro v hv hne
    simp only [message_headers.content_length]
    rw [hv, if_neg hne]
  · intro s c hc hd
    unfold from_dec_string
    split_ifs with h1
    · rfl
    · exfalso
      simp at h1
      exact hd (h1.2 c hc)
  · intro s hne hd hbound
    unfold from_dec_string
    split_ifs with h1
    · exfalso
      simp at h1
      rcases h1 with h1 | ⟨x, hx, hdx⟩
      · exact hne h1
      · obtain ⟨hd1, hd2⟩ := hd x hx
        omega
    · show (if 2 ^ 63 - 1 < s.foldl (fun a c => a * 10 + (c - 48)) 0
          then (-1 : Int)
          else (s.foldl (fun a c => a * 10 + (c - 48)) 0 : Nat)) = _
      rw [if_neg (by omega)]
  · intro s hne hd hbound
    unfold from_dec_string
    split_ifs with h1
    · exfalso
      simp at h1
      rcases h1 with h1 | ⟨x, hx, hdx⟩
      · exact hne h1
      · obtain ⟨hd1, hd2⟩ := hd x hx
        omega
    · show (if 2 ^ 63 - 1 < s.foldl (fun a c => a * 10 + (c - 48)) 0
          then (-1 : Int)
          else (s.foldl (fun a c => a * 10 + (c - 48)) 0 : Nat)) = _
      rw [if_pos (by omega)]

/-- Witness for C9 at a stored value of 42 and at a malformed value. -/
theorem C9_witness :
    message_headers.content_length
      ⟨100, 65534, [(bytes "content-length", bytes "42")],
       field_line.mk0 false 8 1024, true, 16⟩
      = from_dec_string (bytes "42") ∧
    from_dec_string (bytes "4x2") = -1 :=
  ⟨(C9_content_length _).2.1 (bytes "42") (by decide) (by decide),
   (C9_content_length
      ⟨100, 65534, [], field_line.mk0 false 8 1024, false, 0⟩).2.2.1
     (bytes "4x2") 120 (by decide) (by decide)⟩

/-- The scanning loop of are_headers_split detects exactly the substrings
LF LF and LF CR LF, accounting for the two carried bytes. -/
theorem ahs_loop_iff : ∀ (rest : List Nat) (prev pprev : Nat),
    ahs_loop prev pprev rest = true ↔
      ([10, 10] <:+: prev :: rest ∨ [10, 13, 10] <:+: pprev :: prev :: rest)
  | [], prev, pprev => by
    simp only [ahs_loop, Bool.false_eq_true, false_iff]
    rintro (h | h) <;> (have hl := h.length_le; simp at hl)
  | c :: rest, prev, pprev => by
    have ih := ahs_loop_iff rest c prev
    simp only [ahs_loop]
    by_cases hc : (decide (c = 10)
        && (decide (prev = 10) || (decide (prev = 13) && decide (pprev = 10))))
        = true
    · rw [if_pos hc]
      refine iff_of_true rfl ?_
      simp only [Bool.and_eq_true, Bool.or_eq_true, decide_eq_true_eq] at hc
      obtain ⟨rfl, hc2⟩ := hc
      rcases hc2 with rfl | ⟨rfl, rfl⟩
      · exact Or.inl ⟨[], rest, rfl⟩
      · exact Or.inr ⟨[], rest, rfl⟩
    · rw [if_neg hc]
      rw [ih]
      have hb : ¬(c = 10 ∧ (prev = 10 ∨ (prev = 13 ∧ pprev = 10))) := by
        simpa using hc
      constructor
      · rintro (h | h)
        · exact Or.inl (List.infix_cons h)
        · exact Or.inr (List.infix_cons h)
      · rintro (h | h)
        · rcases List.infix_cons_iff.mp h with hp | hi
          · rcases List.cons_prefix_cons.mp hp with ⟨h1, hp2⟩
            rcases List.cons_prefix_cons.mp hp2 with ⟨h2, -⟩
            exact absurd ⟨h2.symm, Or.inl h1.symm⟩ hb
          · exact Or.inl hi
        · rcases List.infix_cons_iff.mp h with hp | hi
          · rcases List.cons_prefix_cons.mp hp with ⟨h1, hp2⟩
            rcases List.cons_prefix_cons.mp hp2 with ⟨h2, hp3⟩
            rcases List.cons_prefix_cons.mp hp3 with ⟨h3, -⟩
            exact absurd ⟨h3.symm, Or.inr ⟨h2.symm, h1.symm⟩⟩ hb
          · exact Or.inr hi

/-- are_headers_split is true exactly when the input contains LF LF or
LF CR LF as a contiguous substring (the two carried bytes start at the
character zero, which is neither LF nor CR). -/
theorem are_headers_split_iff (l : List Nat) :
    are_headers_split l = true ↔ ([10, 10] <:+: l ∨ [10, 13, 10] <:+: l) := by
  rw [are_headers_split, ahs_loop_iff]
  constructor
  · rintro (h | h)
    · rcases List.infix_cons_iff.mp h with hp | hi
      · rcases List.cons_prefix_cons.mp hp with ⟨h48, -⟩
        exact absurd h48 (by decide)
      · exact Or.inl hi
    · rcases List.infix_cons_iff.mp h with hp | hi
      · rcases List.cons_prefix_cons.mp hp with ⟨h48, -⟩
        exact absurd h48 (by decide)
      · rcases List.infix_cons_iff.mp hi with hp | hi2
        · rcases List.cons_prefix_cons.mp hp with ⟨h48, -⟩
          exact absurd h48 (by decide)
        · exact Or.inr hi2
  · rintro (h | h)
    · exact Or.inl (List.infix_cons h)
    · exact Or.inr (List.infix_cons (List.infix_cons h))

/-- C2 counterexample: the string LF a LF contains LF LF as a subsequence
(in the standard non-contiguous sense) yet are_headers_split returns
false, so the claimed characterisation by subsequence containment fails;
the function detects contiguous substrings. -/
theorem C2_counterexample :
    are_headers_split (bytes "\na\n") = false ∧
    List.Sublist [10, 10] (bytes "\na\n") := by
  constructor
  · decide
  · decide

/-- C2 amended: are_headers_split s is true exactly when s contains LF LF
or LF CR LF as a contiguous substring; in particular any byte string
containing CR LF CR LF "GET /evil HTTP/1.1" contiguously is flagged. -/
theorem C2_split_detects_substrings (l : List Nat) :
    (are_headers_split l = true ↔ ([10, 10] <:+: l ∨ [10, 13, 10] <:+: l)) ∧
    (∀ v : List Nat, bytes "\r\n\r\nGET /evil HTTP/1.1" <:+: v →
      are_headers_split v = true) := by
  refine ⟨are_headers_split_iff l, ?_⟩
  intro v hv
  have h3 : [10, 13, 10] <:+: bytes "\r\n\r\nGET /evil HTTP/1.1" :=
    ⟨[13], bytes "GET /evil HTTP/1.1", by decide⟩
  exact (are_headers_split_iff v).mpr (Or.inr (h3.trans hv))

/-- Witness for C2 on a concrete forged header string. -/
theorem C2_witness :
    are_headers_split (bytes "a: b\r\n\r\nGET /evil HTTP/1.1") = true :=
  (C2_split_detects_substrings []).2 (bytes "a: b\r\n\r\nGET /evil HTTP/1.1")
    ⟨bytes "a: b", [], by decide⟩

theorem add_field_absent : ∀ (fields : List (List Nat × List Nat))
    (n v : List Nat), (∀ p ∈ fields, p.1 ≠ n) →
    add_field fields n v = fields ++ [(n, v)]
  | [], n, v => fun _ => rfl
  | (k, w) :: restF, n, v => fun h => by
    have hk : k ≠ n := h (k, w) (by simp)
    simp only [add_field, if_neg hk, List.cons_append]
    rw [add_field_absent restF n v (fun p hp => h p (by simp [hp]))]

theorem add_field_found_last : ∀ (fields : List (List Nat × List Nat))
    (n v1 v2 : List Nat), (∀ p ∈ fields, p.1 ≠ n) →
    add_field (fields ++ [(n, v1)]) n v2
      = fields ++ [(n, v1 ++ separator n :: v2)]
  | [], n, v1, v2 => fun _ => by
    simp [add_field]
  | (k, w) :: restF, n, v1, v2 => fun h => by
    have hk : k ≠ n := h (k, w) (by simp)
    simp only [List.cons_append, add_field, if_neg hk, List.append_eq]
    rw [add_field_found_last restF n v1 v2 (fun p hp => h p (by simp [hp]))]

theorem find_field_append_last : ∀ (fields : List (List Nat × List Nat))
    (n x : List Nat), (∀ p ∈ fields, p.1 ≠ n) →
    find_field (fields ++ [(n, x)]) n = x
  | [], n, x => fun _ => by simp [find_field]
  | (k, w) :: restF, n, x => fun h => by
    have hk : k ≠ n := h (k, w) (by simp)
    simp only [List.cons_append, find_field, if_neg hk]
    exact find_field_append_last restF n x (fun p hp => h p (by simp [hp]))

theorem countP_append_last (fields : List (List Nat × List Nat))
    (n x : List Nat) (h : ∀ p ∈ fields, p.1 ≠ n) :
    (fields ++ [(n, x)]).countP (fun p => decide (p.1 = n)) = 1 := by
  rw [List.countP_append]
  have h0 : fields.countP (fun p => decide (p.1 = n)) = 0 :=
    List.countP_eq_zero.mpr (fun p hp => by simp [h p hp])
  rw [h0]
  simp [List.countP_cons]

/-- C3 counterexample: when the collection already stores an entry for the
name, add(n, v1) followed by add(n, v2) yields the old value extended by
both, not v1 separator v2, so the claim fails for such collections. -/
theorem C3_counterexample :
    find_field (add_field (add_field [(bytes "a", bytes "x")] (bytes "a")
        (bytes "1")) (bytes "a") (bytes "2")) (bytes "a") = bytes "x,1,2" ∧
    bytes "x,1,2" ≠ bytes "1,2" := by decide

/-- C3 amended: on a collection with no stored entry for n, add(n, v1)
then add(n, v2) leaves exactly one entry for n whose value is v1 followed
by the separator and v2, the separator being a semicolon when n contains
"cookie" and a comma otherwise. -/
theorem C3_merge_law (fields : List (List Nat × List Nat))
    (n v1 v2 : List Nat) (h : ∀ p ∈ fields, p.1 ≠ n) :
    add_field (add_field fields n v1) n v2
        = fields ++ [(n, v1 ++ separator n :: v2)] ∧
    (add_field (add_field fields n v1) n v2).countP
        (fun p => decide (p.1 = n)) = 1 ∧
    find_field (add_field (add_field fields n v1) n v2) n
        = v1 ++ separator n :: v2 ∧
    (contains_seq (bytes "cookie") n = true → separator n = 59) ∧
    (contains_seq (bytes "cookie") n = false → separator n = 44) := by
  have h1 : add_field fields n v1 = fields ++ [(n, v1)] :=
    add_field_absent fields n v1 h
  have h2 : add_field (fields ++ [(n, v1)]) n v2
      = fields ++ [(n, v1 ++ separator n :: v2)] :=
    add_field_found_last fields n v1 v2 h
  refine ⟨by rw [h1, h2], ?_, ?_, ?_, ?_⟩
  · rw [h1, h2]
    exact countP_append_last fields n _ h
  · rw [h1, h2]
    exact find_field_append_last fields n _ h
  · intro hck
    simp [separator, hck]
  · intro hck
    simp [separator, hck]

/-- Witness for C3 at the cookie name on an empty collection. -/
theorem C3_witness :
    find_field (add_field (add_field [] (bytes "cookie") (bytes "a=1"))
        (bytes "cookie") (bytes "b=2")) (bytes "cookie")
      = bytes "a=1" ++ separator (bytes "cookie") :: bytes "b=2" :=
  (C3_merge_law [] (bytes "cookie") (bytes "a=1") (bytes "b=2")
    (by simp)).2.2.1

/-- A character allowed to appear in a stored field name: lower-case ASCII
alphabetic or a dash. -/
def is_name_char (c : Nat) : Bool := (97 ≤ c && c ≤ 122) || c = 45

theorem tolower_name_char (c : Nat) (h : (isalpha c || c = 45) = true) :
    is_name_char (tolower c) = true := by
  simp only [isalpha, Bool.or_eq_true, Bool.and_eq_true,
    decide_eq_true_eq] at h
  simp only [tolower, is_name_char, Bool.or_eq_true, Bool.and_eq_true,
    decide_eq_true_eq]
  split_ifs with hc
  · simp only [Bool.and_eq_true, decide_eq_true_eq] at hc
    omega
  · simp only [Bool.and_eq_true, decide_eq_true_eq, not_and] at hc
    omega

/-- parse_char either leaves the name unchanged, or (in HEADER_NAME, on an
alphabetic byte or a dash) appends its lower-cased byte. -/
theorem parse_char_name_cases (fl : field_line) (c : Nat) :
    (parse_char fl c).1.name = fl.name ∨
    ((isalpha c || c = 45) = true ∧
      (parse_char fl c).1.name = fl.name ++ [tolower c]) := by
  obtain ⟨s, mw, ml, nm, v, len, ws, st⟩ := fl
  simp only [parse_char, value_step]
  by_cases h1 : ml < len + 1
  · rw [if_pos h1]
    exact Or.inl rfl
  · rw [if_neg h1]
    cases st <;> dsimp only <;>
      first
        | exact Or.inl rfl
        | (split_ifs <;>
            first
              | exact Or.inl rfl
              | exact Or.inr ⟨by assumption, rfl⟩)

/-- Across a whole parse call, every character of the stored name is a
lower-case letter or a dash (given the incoming name already satisfied
this). -/
theorem fl_parse_name : ∀ (l : List Nat) (fl : field_line),
    (∀ x ∈ fl.name, is_name_char x = true) →
    ∀ x ∈ (field_line.parse fl l).1.name, is_name_char x = true
  | [], fl => fun h => by rw [fl_parse_nil]; exact h
  | c :: rest, fl => fun h => by
    by_cases hv : fl.state = .HEADER_VALID
    · rw [fl_parse_valid fl c rest hv]
      exact h
    · rcases hpc : parse_char fl c with ⟨fl', b⟩
      have hname : ∀ x ∈ fl'.name, is_name_char x = true := by
        have hcases := parse_char_name_cases fl c
        rw [hpc] at hcases
        rcases hcases with he | ⟨ha, he⟩
        · intro x hx
          exact h x (he ▸ hx)
        · intro x hx
          rw [show (fl', b).1.name = fl'.name from rfl] at he
          rw [he] at hx
          rcases List.mem_append.mp hx with hx | hx
          · exact h x hx
          · simp only [List.mem_singleton] at hx
            subst hx
            exact tolower_name_char c ha
      cases b with
      | false =>
        rw [fl_parse_false fl c rest fl' hv hpc]
        exact hname
      | true =>
        by_cases hv' : fl'.state = .HEADER_VALID
        · cases rest with
          | nil =>
            rw [fl_parse_true_valid_nil fl c fl' hv hpc hv']
            exact hname
          | cons c2 rest2 =>
            rcases hsp : is_space_or_tab c2 with _ | _
            · rw [fl_parse_true_valid_nofold fl c c2 rest2 fl' hv hpc hv' hsp]
              exact hname
            · rw [fl_parse_true_valid_fold fl c c2 rest2 fl' hv hpc hv' hsp]
              exact fl_parse_name (c2 :: rest2) _ hname
        · rw [fl_parse_true_nonvalid fl c rest fl' hv hpc hv']
          exact fl_parse_name rest fl' hname

/-- C6 counterexample: the field line ": v" followed by CRLF is accepted
as HEADER_VALID with an empty stored name, contradicting the claimed
non-emptiness invariant. -/
theorem C6_counterexample :
    (field_line.parse (field_line.mk0 false 8 1024) (bytes ": v\r\n")).2.2
      = true ∧
    (field_line.parse (field_line.mk0 false 8 1024) (bytes ": v\r\n")).1.name
      = [] := by decide

/-- C6 amended: for every input accepted as HEADER_VALID from a freshly
constructed parser, every character of the stored name is a lower-case
letter or a dash; the name may however be empty. -/
theorem C6_name_characters (strictV : Bool) (mws mll : Nat) (l : List Nat)
    (hok : (field_line.parse (field_line.mk0 strictV mws mll) l).2.2 = true) :
    ∀ x ∈ (field_line.parse (field_line.mk0 strictV mws mll) l).1.name,
      is_name_char x = true :=
  fl_parse_name l _ (by intro x hx; simp [field_line.mk0] at hx)

/-- Witness for C6 at a concrete accepted field line. -/
theorem C6_witness :
    (field_line.parse (field_line.mk0 false 8 1024) (bytes "Host: a\r\n")).2.2
      = true ∧
    ∀ x ∈ (field_line.parse (field_line.mk0 false 8 1024)
        (bytes "Host: a\r\n")).1.name, is_name_char x = true :=
  ⟨by decide, C6_name_characters false 8 1024 (bytes "Host: a\r\n") (by decide)⟩

/-! Single-byte facts about parse_char in each accepting situation, used to
run the parser over a whole field line of known shape. -/

theorem parse_char_name_step (fl : field_line) (x : Nat)
    (hst : fl.state = .HEADER_NAME) (hx : (isalpha x || x = 45) = true)
    (hlen : fl.length + 1 ≤ fl.max_line_length) :
    parse_char fl x =
      ({ fl with name := fl.name ++ [tolower x], length := fl.length + 1 },
       true) := by
  obtain ⟨s, mw, ml, nm, v, len, ws, st⟩ := fl
  simp only at hst hlen
  subst hst
  simp only [parse_char]
  rw [if_neg (by omega : ¬ ml < len + 1)]
  dsimp only
  rw [if_pos hx]

theorem parse_char_colon_step (fl : field_line)
    (hst : fl.state = .HEADER_NAME) (hlen : fl.length + 1 ≤ fl.max_line_length) :
    parse_char fl 58 =
      ({ fl with state := .HEADER_VALUE_LS, length := fl.length + 1 },
       true) := by
  obtain ⟨s, mw, ml, nm, v, len, ws, st⟩ := fl
  simp only at hst hlen
  subst hst
  simp only [parse_char]
  rw [if_neg (by omega : ¬ ml < len + 1)]
  dsimp only
  rw [if_neg (by decide)]
  simp

theorem parse_char_ws_step (fl : field_line) (x : Nat)
    (hst : fl.state = .HEADER_VALUE_LS) (hx : is_space_or_tab x = true)
    (hws : fl.ws_count + 1 ≤ fl.max_whitespace)
    (hlen : fl.length + 1 ≤ fl.max_line_length) :
    parse_char fl x =
      ({ fl with ws_count := fl.ws_count + 1, length := fl.length + 1 },
       true) := by
  obtain ⟨s, mw, ml, nm, v, len, ws, st⟩ := fl
  simp only at hst hws hlen
  subst hst
  simp only [parse_char]
  rw [if_neg (by omega : ¬ ml < len + 1)]
  dsimp only
  rw [if_pos hx, if_neg (by omega : ¬ mw < ws + 1)]

theorem parse_char_value_first_step (fl : field_line) (x : Nat)
    (hst : fl.state = .HEADER_VALUE_LS) (hx : is_space_or_tab x = false)
    (hxe : is_end_of_line x = false)
    (hlen : fl.length + 1 ≤ fl.max_line_length) :
    parse_char fl x =
      ({ fl with state := .HEADER_VALUE, value := fl.value ++ [x],
                 length := fl.length + 1 }, true) := by
  obtain ⟨s, mw, ml, nm, v, len, ws, st⟩ := fl
  simp only at hst hlen
  subst hst
  simp only [parse_char, value_step]
  rw [if_neg (by omega : ¬ ml < len + 1)]
  dsimp only
  rw [if_neg (by simp [hx]), if_pos (by simp [hxe])]

theorem parse_char_value_step (fl : field_line) (x : Nat)
    (hst : fl.state = .HEADER_VALUE) (hxe : is_end_of_line x = false)
    (hlen : fl.length + 1 ≤ fl.max_line_length) :
    parse_char fl x =
      ({ fl with value := fl.value ++ [x], length := fl.length + 1 },
       true) := by
  obtain ⟨s, mw, ml, nm, v, len, ws, st⟩ := fl
  simp only at hst hlen
  subst hst
  simp only [parse_char, value_step]
  rw [if_neg (by omega : ¬ ml < len + 1)]
  dsimp only
  rw [if_pos (by simp [hxe])]

theorem parse_char_cr_step (fl : field_line)
    (hst : fl.state = .HEADER_VALUE)
    (hlen : fl.length + 1 ≤ fl.max_line_length) :
    parse_char fl 13 =
      ({ fl with state := .HEADER_LF, length := fl.length + 1 }, true) := by
  obtain ⟨s, mw, ml, nm, v, len, ws, st⟩ := fl
  simp only at hst hlen
  subst hst
  simp only [parse_char, value_step]
  rw [if_neg (by omega : ¬ ml < len + 1)]
  dsimp only
  rw [if_neg (by decide)]
  simp

theorem parse_char_lf_step (fl : field_line)
    (hst : fl.state = .HEADER_LF)
    (hlen : fl.length + 1 ≤ fl.max_line_length) :
    parse_char fl 10 =
      ({ fl with state := .HEADER_VALID, length := fl.length + 1 },
       true) := by
  obtain ⟨s, mw, ml, nm, v, len, ws, st⟩ := fl
  simp only at hst hlen
  subst hst
  simp only [parse_char]
  rw [if_neg (by omega : ¬ ml < len + 1)]
  dsimp only
  simp

/-- Running the parser over a run of name bytes accumulates their
lower-cased forms. -/
theorem fl_run_name : ∀ (nm : List Nat) (fl : field_line) (rest : List Nat),
    fl.state = .HEADER_NAME →
    (∀ x ∈ nm, (isalpha x || x = 45) = true) →
    fl.length + nm.length ≤ fl.max_line_length →
    field_line.parse fl (nm ++ rest) =
      field_line.parse
        { fl with name := fl.name ++ nm.map tolower,
                  length := fl.length + nm.length } rest
  | [], fl, rest => by
    intro _ _ _
    simp
  | x :: nm', fl, rest => by
    intro hst hch hlen
    have hx := hch x (by simp)
    have hnotv : fl.state ≠ .HEADER_VALID := by simp [hst]
    have hpc := parse_char_name_step fl x hst hx (by simp at hlen; omega)
    rw [List.cons_append,
        fl_parse_true_nonvalid fl x (nm' ++ rest) _ hnotv hpc (by simp [hst]),
        fl_run_name nm' _ rest (by simp [hst])
          (fun y hy => hch y (by simp [hy]))
          (by simp at hlen ⊢; omega)]
    congr 1
    simp [List.append_assoc]
    omega

/-- Running the parser over leading whitespace consumes it into ws_count
without touching the value. -/
theorem fl_run_ws : ∀ (wsl : List Nat) (fl : field_line) (rest : List Nat),
    fl.state = .HEADER_VALUE_LS →
    (∀ x ∈ wsl, is_space_or_tab x = true) →
    fl.ws_count + wsl.length ≤ fl.max_whitespace →
    fl.length + wsl.length ≤ fl.max_line_length →
    field_line.parse fl (wsl ++ rest) =
      field_line.parse
        { fl with ws_count := fl.ws_count + wsl.length,
                  length := fl.length + wsl.length } rest
  | [], fl, rest => by
    intro _ _ _ _
    simp
  | x :: wsl', fl, rest => by
    intro hst hch hws hlen
    have hx := hch x (by simp)
    have hnotv : fl.state ≠ .HEADER_VALID := by simp [hst]
    have hpc := parse_char_ws_step fl x hst hx (by simp at hws; omega)
      (by simp at hlen; omega)
    rw [List.cons_append,
        fl_parse_true_nonvalid fl x (wsl' ++ rest) _ hnotv hpc (by simp [hst]),
        fl_run_ws wsl' _ rest (by simp [hst])
          (fun y hy => hch y (by simp [hy]))
          (by simp at hws ⊢; omega)
          (by simp at hlen ⊢; omega)]
    congr 1
    simp
    omega

/-- Running the parser over value bytes (no CR or LF among them) appends
them verbatim to the value. -/
theorem fl_run_value : ∀ (vl : List Nat) (fl : field_line) (rest : List Nat),
    fl.state = .HEADER_VALUE →
    (∀ x ∈ vl, is_end_of_line x = false) →
    fl.length + vl.length ≤ fl.max_line_length →
    field_line.parse fl (vl ++ rest) =
      field_line.parse
        { fl with value := fl.value ++ vl,
                  length := fl.length + vl.length } rest
  | [], fl, rest => by
    intro _ _ _
    simp
  | x :: vl', fl, rest => by
    intro hst hch hlen
    have hx := hch x (by simp)
    have hnotv : fl.state ≠ .HEADER_VALID := by simp [hst]
    have hpc := parse_char_value_step fl x hst hx (by simp at hlen; omega)
    rw [List.cons_append,
        fl_parse_true_nonvalid fl x (vl' ++ rest) _ hnotv hpc (by simp [hst]),
        fl_run_value vl' _ rest (by simp [hst])
          (fun y hy => hch y (by simp [hy]))
          (by simp at hlen ⊢; omega)]
    congr 1
    simp [List.append_assoc]
    omega

/-- C7 counterexample: the field line "a: b " followed by CRLF is accepted
with stored value "b " — the trailing space is preserved, so the value is
not trimmed of trailing whitespace as claimed. -/
theorem C7_counterexample :
    (field_line.parse (field_line.mk0 false 8 1024) (bytes "a: b \r\n")).2.2
      = true ∧
    (field_line.parse (field_line.mk0 false 8 1024) (bytes "a: b \r\n")).1.value
      = bytes "b " ∧
    bytes "b " ≠ bytes "b" := by decide

/-- C7 amended: for a field line of shape name, colon, run of leading
whitespace, then a value starting with a non-whitespace byte and free of
CR and LF, the parser accepts and stores exactly the value bytes: leading
whitespace after the colon is dropped, while case, interior whitespace and
trailing whitespace of the value are preserved verbatim. -/
theorem C7_leading_ws_trimmed_only (strictV : Bool) (mws mll : Nat)
    (nm wsl : List Nat) (c0 : Nat) (vtail : List Nat)
    (hnm : ∀ x ∈ nm, (isalpha x || x = 45) = true)
    (hws : ∀ x ∈ wsl, is_space_or_tab x = true)
    (hwsb : wsl.length ≤ mws)
    (hc0 : is_space_or_tab c0 = false)
    (hc0e : is_end_of_line c0 = false)
    (hv : ∀ x ∈ vtail, is_end_of_line x = false)
    (hlen : nm.length + 1 + wsl.length + (vtail.length + 1) + 2 ≤ mll) :
    field_line.parse (field_line.mk0 strictV mws mll)
        (nm ++ 58 :: (wsl ++ (c0 :: vtail) ++ [13, 10])) =
      (⟨strictV, mws, mll, nm.map tolower, c0 :: vtail,
        nm.length + 1 + wsl.length + (vtail.length + 1) + 2, wsl.length,
        .HEADER_VALID⟩, [], true) := by
  rw [fl_run_name nm (field_line.mk0 strictV mws mll) _ rfl hnm
      (by simp [field_line.mk0]; omega)]
  rw [fl_parse_true_nonvalid _ 58 _ _ (by simp [field_line.mk0])
      (parse_char_colon_step _ rfl (by simp [field_line.mk0]; omega))
      (by simp [field_line.mk0])]
  rw [List.append_assoc]
  rw [fl_run_ws wsl _ _ rfl hws (by simp [field_line.mk0]; omega)
      (by simp [field_line.mk0]; omega)]
  rw [List.cons_append]
  rw [fl_parse_true_nonvalid _ c0 _ _ (by simp [field_line.mk0])
      (parse_char_value_first_step _ c0 rfl hc0 hc0e
        (by simp [field_line.mk0]; omega))
      (by simp [field_line.mk0])]
  rw [fl_run_value vtail _ _ rfl hv (by simp [field_line.mk0]; omega)]
  rw [fl_parse_true_nonvalid _ 13 _ _ (by simp [field_line.mk0])
      (parse_char_cr_step _ rfl (by simp [field_line.mk0]; omega))
      (by simp [field_line.mk0])]
  rw [fl_parse_true_valid_nil _ 10 _ (by simp [field_line.mk0])
      (parse_char_lf_step _ rfl (by simp [field_line.mk0]; omega)) rfl]
  simp [field_line.mk0, List.append_assoc]
  omega

/-- Witness for C7: a value with mixed case, interior and trailing
whitespace is stored verbatim after the leading whitespace. -/
theorem C7_witness :
    field_line.parse (field_line.mk0 false 8 1024)
        (bytes "A-b" ++ 58 :: (bytes "  " ++ (120 :: bytes "Y z ") ++ [13, 10]))
      = (⟨false, 8, 1024, (bytes "A-b").map tolower, 120 :: bytes "Y z ",
          (bytes "A-b").length + 1 + (bytes "  ").length
            + ((bytes "Y z ").length + 1) + 2, (bytes "  ").length,
          .HEADER_VALID⟩, [], true) :=
  C7_leading_ws_trimmed_only false 8 1024 (bytes "A-b") (bytes "  ") 120
    (bytes "Y z ") (by decide) (by decide) (by decide) (by decide) (by decide)
    (by decide) (by decide)

/-- C1 counterexample: feeding "a: b\r\n\r\n" in one call stores the field
a: b and reports valid, but feeding "a: b\r" then "\n\r\n" through two
calls (state kept in between) reports valid with NO stored fields: the
loop guard of message_headers::parse mistakes the leftover LF of the cut
line terminator for the start of the blank line and abandons the pending
field.  Cut-invariance fails. -/
theorem C1_counterexample :
    (mh_parse (message_headers.mk0 false 8 1024 100 65534)
        (bytes "a: b\r\n\r\n")).2.2 = true ∧
    (mh_parse (message_headers.mk0 false 8 1024 100 65534)
        (bytes "a: b\r\n\r\n")).1.fields = [(bytes "a", bytes "b")] ∧
    (mh_parse (mh_parse (message_headers.mk0 false 8 1024 100 65534)
        (bytes "a: b\r")).1 (bytes "\n\r\n")).2.2 = true ∧
    (mh_parse (mh_parse (message_headers.mk0 false 8 1024 100 65534)
        (bytes "a: b\r")).1 (bytes "\n\r\n")).1.fields = [] := by decide

/-- The field_line parser is in its freshly cleared state. -/
def fl_cleared (fl : field_line) : Prop :=
  fl.name = [] ∧ fl.value = [] ∧ fl.length = 0 ∧ fl.ws_count = 0 ∧
    fl.state = .HEADER_NAME

instance (fl : field_line) : Decidable (fl_cleared fl) := by
  unfold fl_cleared
  infer_instance

/-- C1 amended: incremental parsing agrees with whole-buffer parsing when
the cut falls at a field-line boundary: if the first call consumed all of
its buffer and returned false (needs more data) with its field-line parser
cleared and the configured limits not exceeded, the buffer was empty or
ended with the LF octet, and the continuation does not begin with a space
or tab (an obs-fold continuation across the cut), then parsing the
concatenation from the original state equals parsing the continuation from
the intermediate state.  The counterexample shows the restriction is
necessary: cuts inside a line terminator or at an obs-fold boundary change
the result. -/
theorem C1_cut_at_field_line_boundary : ∀ (s1 : List Nat)
    (mh mh' : message_headers) (s2 : List Nat),
    mh_parse mh s1 = (mh', [], false) →
    fl_cleared mh'.field →
    mh'.length ≤ mh'.max_header_length →
    mh'.fields.length ≤ mh'.max_header_number →
    (s1 = [] ∨ s1.getLast? = some 10) →
    (s2 = [] ∨ ∃ e r2, s2 = e :: r2 ∧ is_space_or_tab e = false) →
    mh_parse mh (s1 ++ s2) = mh_parse mh' s2
  | [], mh, mh', s2 => by
    intro h1 h2 h3 h4 h5 h6
    rw [mh_parse_nil] at h1
    simp only [Prod.mk.injEq] at h1
    obtain ⟨h1a, -, -⟩ := h1
    subst h1a
    rw [List.nil_append]
  | c :: t, mh, mh', s2 => by
    intro h1 h2 h3 h4 h5 h6
    rcases he : is_end_of_line c with _ | _
    · rcases hfp : field_line.parse mh.field (c :: t) with ⟨fl, rem, b⟩
      cases b with
      | false =>
        rw [mh_parse_field_false mh c t fl rem he hfp] at h1
        simp only [Prod.mk.injEq] at h1
        obtain ⟨h1a, -, -⟩ := h1
        exfalso
        have hvne : mh.field.state ≠ .HEADER_VALID := by
          intro hval
          rw [fl_parse_valid mh.field c t hval] at hfp
          simp at hfp
        have hlen1 := fl_parse_length_succ c t mh.field hvne
        rw [hfp] at hlen1
        have hcl : fl.length = 0 := by
          have hx := h2
          rw [← h1a] at hx
          exact hx.2.2.1
        dsimp only at hlen1
        omega
      | true =>
        rw [mh_parse_field_true mh c t fl rem he hfp] at h1
        by_cases hcond :
            (add_field mh.fields fl.name fl.value).length ≤ mh.max_header_number
            ∧ mh.length + (fl.name.length + fl.value.length)
                ≤ mh.max_header_length
        · rw [if_pos hcond] at h1
          rw [List.cons_append]
          rcases hrem : rem with _ | ⟨d, r⟩
          · subst hrem
            have hfp2 := fl_parse_append_end (c :: t) mh.field fl s2 hfp h6
            rw [mh_parse_field_true mh c (t ++ s2) fl s2 he hfp2,
                if_pos hcond]
            rw [mh_parse_nil] at h1
            simp only [Prod.mk.injEq] at h1
            obtain ⟨h1a, -, -⟩ := h1
            rw [h1a]
          · subst hrem
            have hfp2 := fl_parse_append_more (c :: t) mh.field fl d r s2 hfp
            rw [mh_parse_field_true mh c (t ++ s2) fl (d :: (r ++ s2)) he hfp2,
                if_pos hcond]
            have hsfx : (d :: r) <:+ (c :: t) := by
              have hs := fl_parse_suffix (c :: t) mh.field
              rw [hfp] at hs
              exact hs
            have h5' : (d :: r) = [] ∨ (d :: r).getLast? = some 10 := by
              rcases h5 with h5 | h5
              · exact absurd h5 (by simp)
              · right
                obtain ⟨pre, hpre⟩ := hsfx
                rw [← hpre] at h5
                rwa [List.getLast?_append_of_ne_nil pre (by simp)] at h5
            have ih := C1_cut_at_field_line_boundary (d :: r) _ mh' s2 h1 h2
              h3 h4 h5' h6
            rw [← List.cons_append]
            exact ih
        · rw [if_neg hcond] at h1
          simp only [Prod.mk.injEq] at h1
          obtain ⟨h1a, -, -⟩ := h1
          exfalso
          rw [← h1a] at h3 h4
          dsimp only at h3 h4
          exact hcond ⟨h4, h3⟩
    · rw [mh_parse_eol mh c t he] at h1
      have hc : c = 13 ∨ c = 10 := by
        simp [is_end_of_line] at he
        tauto
      rcases hc with rfl | rfl
      · cases t with
        | nil =>
          exfalso
          rcases h5 with h5 | h5
          · simp at h5
          · simp at h5
        | cons d t2 =>
          by_cases hd : d = 10
          · subst hd
            exfalso
            simp [blank_line, is_end_of_line] at h1
          · exfalso
            simp [blank_line, is_end_of_line, hd] at h1
      · exfalso
        simp [blank_line, is_end_of_line] at h1
termination_by s1 mh mh' s2 => s1.length * 2
  + (if mh.field.state = .HEADER_VALID then 1 else 0)
decreasing_by
  have hs := fl_parse_rem_le (c :: t) mh.field
  rw [hfp] at hs
  dsimp only at hs
  simp only [List.length_cons] at hs ⊢
  by_cases hval : mh.field.state = .HEADER_VALID
  · simp only [hval, if_pos rfl, if_true]
    split
    · next hh => simp [field_line.clear] at hh
    · omega
  · have hcons := fl_parse_consumed c t mh.field hval
    rw [hfp] at hcons
    dsimp only at hcons
    simp only [List.length_cons] at hcons
    rw [if_neg hval]
    split
    · next hh => simp [field_line.clear] at hh
    · omega

/-- Witness for C1 at a concrete cut between two complete field lines. -/
theorem C1_witness :
    mh_parse (message_headers.mk0 false 8 1024 100 65534)
        (bytes "a: b\r\n" ++ bytes "c: d\r\n\r\n") =
      mh_parse
        ⟨100, 65534, [(bytes "a", bytes "b")],
         ⟨false, 8, 1024, [], [], 0, 0, .HEADER_NAME⟩, false, 2⟩
        (bytes "c: d\r\n\r\n") :=
  C1_cut_at_field_line_boundary (bytes "a: b\r\n")
    (message_headers.mk0 false 8 1024 100 65534)
    ⟨100, 65534, [(bytes "a", bytes "b")],
     ⟨false, 8, 1024, [], [], 0, 0, .HEADER_NAME⟩, false, 2⟩
    (bytes "c: d\r\n\r\n") (by decide) (by decide) (by decide) (by decide)
    (Or.inr (by decide))
    (Or.inr ⟨99, bytes ": d\r\n\r\n", by decide, by decide⟩)
